import Mathlib

/-
Verification of the Go-Blockchain repository core.

Bytes are modeled as lists of natural numbers.  SHA-256 (the crypto/sha256
library, an external collaborator per the spec) is modeled as an abstract
function parameter h : Bytes -> Bytes; properties that depend on concrete
hash behaviour take explicit hypotheses about h.
-/

abbrev Bytes : Type := List Nat

abbrev HashFn : Type := Bytes → Bytes

/-- TXInput (transaction.go): a reference to a previous transaction output,
Txid and Vout locating the output, ScriptSig the unlock data. -/
structure TXInput where
  Txid : Bytes
  Vout : Int
  ScriptSig : String
  deriving DecidableEq

/-- TXOutput (transaction.go): an amount of coins and the lock script. -/
structure TXOutput where
  Value : Int
  ScriptPubKey : String
  deriving DecidableEq

/-- Transaction (transaction.go): id, inputs, outputs. -/
structure Transaction where
  ID : Bytes
  Vin : List TXInput
  Vout : List TXOutput
  deriving DecidableEq

/-- Block (block.go): timestamp, transactions, link to the previous block,
own hash and proof-of-work nonce. -/
structure Block where
  Timestamp : Int
  Transactions : List Transaction
  PrevBlockHash : Bytes
  Hash : Bytes
  Nonce : Int
  deriving DecidableEq

/-- targetBits (proofofwork.go): the fixed mining difficulty. -/
def targetBits : Nat := 12

/-- maxNonce (proofofwork.go): the nonce ceiling of the mining loop. -/
def maxNonce : Nat := 10000000

/-- subsidy (transaction.go): the fixed mining reward. -/
def subsidy : Int := 10

/-- genesisCoinbaseData (blockchain.go). -/
def genesisCoinbaseData : String :=
  "The Times 03/Jan/2009 Chancellor on brink of second bailout for banks"

/-- NewProofOfWork (proofofwork.go) computes the target as 1 shifted left
by 256 - targetBits. -/
def powTarget : Nat := 1 <<< (256 - targetBits)

/-- Helper for IntToHex: the w-byte big-endian encoding of a natural number. -/
def natToBEBytes : Nat → Nat → Bytes
  | 0, _ => []
  | w+1, n => natToBEBytes w (n / 256) ++ [n % 256]

/-- Modelled from the spec: the utility file defining IntToHex is absent from
the sources (only its callers in proofofwork.go are present).  Per spec
section 4.1 header fields are fixed-width big-endian integers; this writes
the value modulo 2 to the 64 as 8 big-endian bytes, the behaviour of
binary.Write on an int64. -/
def IntToHex (i : Int) : Bytes := natToBEBytes 8 (i % (2:Int)^64).toNat

/-- big.Int SetBytes: interpret bytes as an unsigned big-endian integer. -/
def hashToNat (b : Bytes) : Nat := b.foldl (fun acc x => acc * 256 + x) 0

/-- Block.HashTransactions (block.go): hash of the concatenation of the
transaction IDs in list order. -/
def hashTransactions (h : HashFn) (b : Block) : Bytes :=
  h (b.Transactions.map Transaction.ID).flatten

/-- ProofOfWork.prepareData (proofofwork.go): the header bytes hashed during
mining, the concatenation of the previous hash, the transactions digest and
the encodings of timestamp, difficulty bits and nonce. -/
def prepareData (h : HashFn) (b : Block) (nonce : Int) : Bytes :=
  b.PrevBlockHash ++ hashTransactions h b ++ IntToHex b.Timestamp ++
    IntToHex (targetBits : Int) ++ IntToHex nonce

/-- The mining loop of ProofOfWork.Run (proofofwork.go), with fuel
maxNonce - nonce.  The hash variable of the Go code starts as 32 zero bytes
and keeps the hash of the last tried nonce when the loop exits by
exhaustion. -/
def powRunFrom (h : HashFn) (b : Block) : Nat → Nat → Bytes → Nat × Bytes
  | 0, nonce, lastHash => (nonce, lastHash)
  | fuel+1, nonce, lastHash =>
    let hv := h (prepareData h b (nonce : Int))
    if hashToNat hv < powTarget then (nonce, hv)
    else powRunFrom h b fuel (nonce+1) hv

/-- ProofOfWork.Run (proofofwork.go): iterate the nonce from 0 while it is
below maxNonce, stopping at the first hash below the target. -/
def powRun (h : HashFn) (b : Block) : Nat × Bytes :=
  powRunFrom h b maxNonce 0 (List.replicate 32 0)

/-- ProofOfWork.Validate (proofofwork.go): recompute the hash at the stored
nonce and compare with the target. -/
def powValidate (h : HashFn) (b : Block) : Bool :=
  decide (hashToNat (h (prepareData h b b.Nonce)) < powTarget)

/-- The block literal built at the start of NewBlock (block.go), before
mining. -/
def mkBaseBlock (txs : List Transaction) (prevBlockHash : Bytes) (now : Int) : Block :=
  { Timestamp := now, Transactions := txs, PrevBlockHash := prevBlockHash,
    Hash := [], Nonce := 0 }

/-- NewBlock (block.go): stamp the timestamp, run proof-of-work, store the
resulting hash and nonce. -/
def NewBlock (h : HashFn) (txs : List Transaction) (prevBlockHash : Bytes) (now : Int) : Block :=
  let b := mkBaseBlock txs prevBlockHash now
  let r := powRun h b
  { b with Hash := r.2, Nonce := (r.1 : Int) }

/-- A hash function returning all zero bytes, used to instantiate mining
success on concrete inputs. -/
def constHashZero : HashFn := fun _ => List.replicate 32 0

/-- A hash function returning all 255 bytes, whose value always lies above
the target, used to instantiate mining exhaustion on concrete inputs. -/
def constHashFF : HashFn := fun _ => List.replicate 32 255

/-- A concrete block with no transactions. -/
def blkZero : Block :=
  { Timestamp := 0, Transactions := [], PrevBlockHash := [], Hash := [], Nonce := 0 }

/-- An injective hash function with constant output length 32, an abstract
stand-in for a collision-free SHA-256 in concrete instantiations. -/
def hashEnc : HashFn := fun x => Encodable.encode x :: List.replicate 31 0

/-- Modelled from the spec: the binary encoding substrate (encoding/gob) is
an external collaborator, specified only as a self-describing lossless
serialize - deserialize pair over canonical bytes.  Records are encoded as
token lists: a byte string is its length followed by its bytes. -/
def encBytes (bs : Bytes) : List Nat := bs.length :: bs

/-- Modelled from the spec: integer field encoding of the substrate, a sign
token followed by the magnitude. -/
def encInt : Int → List Nat
  | .ofNat n => [0, n]
  | .negSucc n => [1, n]

/-- Modelled from the spec: string field encoding of the substrate, the
length followed by the character codes. -/
def encString (s : String) : List Nat := s.data.length :: s.data.map Char.toNat

/-- Modelled from the spec: sequence encoding of the substrate, the length
followed by the encoded elements. -/
def encListOf {α : Type} (enc : α → List Nat) (xs : List α) : List Nat :=
  xs.length :: (xs.map enc).flatten

/-- Encoding of a TXInput record. -/
def encTXInput (i : TXInput) : List Nat :=
  encBytes i.Txid ++ encInt i.Vout ++ encString i.ScriptSig

/-- Encoding of a TXOutput record. -/
def encTXOutput (o : TXOutput) : List Nat :=
  encInt o.Value ++ encString o.ScriptPubKey

/-- The gob encoding of a transaction used by Transaction.SetID
(transaction.go), modelled through the abstract substrate. -/
def serializeTx (t : Transaction) : List Nat :=
  encBytes t.ID ++ encListOf encTXInput t.Vin ++ encListOf encTXOutput t.Vout

/-- Block.Serialize (block.go): the stored byte form of a block. -/
def Block.Serialize (b : Block) : Bytes :=
  encInt b.Timestamp ++ encListOf serializeTx b.Transactions ++
    encBytes b.PrevBlockHash ++ encBytes b.Hash ++ encInt b.Nonce

/-- Reads exactly n tokens. -/
def readN : Nat → List Nat → Option (List Nat × List Nat)
  | 0, r => some ([], r)
  | _+1, [] => none
  | k+1, x :: r =>
    match readN k r with
    | some (xs, r2) => some (x :: xs, r2)
    | none => none

/-- Decoder for encBytes. -/
def decBytes : List Nat → Option (Bytes × List Nat)
  | [] => none
  | n :: r => readN n r

/-- Decoder for encInt. -/
def decInt : List Nat → Option (Int × List Nat)
  | 0 :: n :: r => some ((n : Int), r)
  | 1 :: n :: r => some (Int.negSucc n, r)
  | _ => none

/-- Reads exactly n character codes. -/
def readChars : Nat → List Nat → Option (List Char × List Nat)
  | 0, r => some ([], r)
  | _+1, [] => none
  | k+1, c :: r =>
    match readChars k r with
    | some (cs, r2) => some (Char.ofNat c :: cs, r2)
    | none => none

/-- Decoder for encString. -/
def decString : List Nat → Option (String × List Nat)
  | [] => none
  | n :: r =>
    match readChars n r with
    | some (cs, r2) => some (String.mk cs, r2)
    | none => none

/-- Decodes exactly k elements with the given element decoder. -/
def decListN {α : Type} (dec : List Nat → Option (α × List Nat)) :
    Nat → List Nat → Option (List α × List Nat)
  | 0, r => some ([], r)
  | k+1, r =>
    match dec r with
    | some (x, r2) =>
      match decListN dec k r2 with
      | some (xs, r3) => some (x :: xs, r3)
      | none => none
    | none => none

/-- Decoder for encListOf. -/
def decListOf {α : Type} (dec : List Nat → Option (α × List Nat)) :
    List Nat → Option (List α × List Nat)
  | [] => none
  | n :: r => decListN dec n r

/-- Decoder for encTXInput. -/
def decTXInput (l : List Nat) : Option (TXInput × List Nat) := do
  let (txid, l1) ← decBytes l
  let (vout, l2) ← decInt l1
  let (sig, l3) ← decString l2
  some (⟨txid, vout, sig⟩, l3)

/-- Decoder for encTXOutput. -/
def decTXOutput (l : List Nat) : Option (TXOutput × List Nat) := do
  let (v, l1) ← decInt l
  let (pk, l2) ← decString l1
  some (⟨v, pk⟩, l2)

/-- Decoder for serializeTx. -/
def decTx (l : List Nat) : Option (Transaction × List Nat) := do
  let (id, l1) ← decBytes l
  let (vin, l2) ← decListOf decTXInput l1
  let (vout, l3) ← decListOf decTXOutput l2
  some (⟨id, vin, vout⟩, l3)

/-- Decoder for Block.Serialize. -/
def decBlock (l : List Nat) : Option (Block × List Nat) := do
  let (ts, l1) ← decInt l
  let (txs, l2) ← decListOf decTx l1
  let (prev, l3) ← decBytes l2
  let (hash, l4) ← decBytes l3
  let (nonce, l5) ← decInt l4
  some (⟨ts, txs, prev, hash, nonce⟩, l5)

/-- DeserializeBlock (block.go): decode one block value from stored bytes. -/
def DeserializeBlock (d : Bytes) : Option Block :=
  match decBlock d with
  | some (b, _) => some b
  | none => none

/-- Transaction.SetID (transaction.go): hash the encoded transaction and
store the digest as its id. -/
def Transaction.SetID (h : HashFn) (tx : Transaction) : Transaction :=
  { tx with ID := h (serializeTx tx) }

/-- TXInput.CanUnlockOutputWith (transaction.go). -/
def TXInput.CanUnlockOutputWith (i : TXInput) (unlockingData : String) : Bool :=
  decide (i.ScriptSig = unlockingData)

/-- TXOutput.CanBeUnlockedWith (transaction.go). -/
def TXOutput.CanBeUnlockedWith (o : TXOutput) (unlockingData : String) : Bool :=
  decide (o.ScriptPubKey = unlockingData)

/-- Transaction.IsCoinbase (transaction.go): one input, empty source id,
output index -1. -/
def Transaction.IsCoinbase (tx : Transaction) : Bool :=
  match tx.Vin with
  | [vin] => decide (vin.Txid.length = 0) && decide (vin.Vout = -1)
  | _ => false

/-- NewCoinbaseTX (transaction.go): one input with empty source id, index
-1 and the memo as unlock data, one output of value subsidy locked to the
recipient; the id is assigned last. -/
def NewCoinbaseTX (h : HashFn) (toAddr data : String) : Transaction :=
  let data := if data = "" then "Reward to \x27" ++ toAddr ++ "\x27" else data
  let txin : TXInput := { Txid := [], Vout := -1, ScriptSig := data }
  let txout : TXOutput := { Value := subsidy, ScriptPubKey := toAddr }
  Transaction.SetID h { ID := [], Vin := [txin], Vout := [txout] }

/-- The spent-outputs map of FindUnspentTransactions (blockchain.go),
from transaction id to the spent output indices.  The hex string keys of
the Go map are modeled by the raw id bytes, hex encoding being injective
with decoding as inverse. -/
abbrev SpentMap : Type := List (Bytes × List Int)

/-- Map lookup, first match. -/
def smLookup : SpentMap → Bytes → Option (List Int)
  | [], _ => none
  | (k, v) :: r, key => if k = key then some v else smLookup r key

/-- The Go idiom m[k] = append(m[k], v). -/
def smAppend : SpentMap → Bytes → Int → SpentMap
  | [], k, v => [(k, [v])]
  | (k2, l) :: r, k, v =>
    if k2 = k then (k2, l ++ [v]) :: r else (k2, l) :: smAppend r k v

/-- The body of the transaction loop of FindUnspentTransactions
(blockchain.go): append the transaction once for every output that is not
recorded as spent and can be unlocked with the address, then, for
non-coinbase transactions, record the inputs unlockable by the address as
spent. -/
def processTx (address : String) (acc : List Transaction × SpentMap)
    (tx : Transaction) : List Transaction × SpentMap :=
  let spentList := (smLookup acc.2 tx.ID).getD []
  let unspent := acc.1 ++ tx.Vout.enum.filterMap (fun p =>
    if spentList.contains (p.1 : Int) then none
    else if p.2.CanBeUnlockedWith address then some tx else none)
  let spent :=
    if tx.IsCoinbase then acc.2
    else tx.Vin.foldl (fun m i =>
      if i.CanUnlockOutputWith address then smAppend m i.Txid i.Vout else m) acc.2
  (unspent, spent)

/-- Blockchain.FindUnspentTransactions (blockchain.go), over the list of
blocks in iterator order, newest first. -/
def findUnspentTransactions (blocks : List Block) (address : String) :
    List Transaction :=
  (blocks.foldl (fun acc blk => blk.Transactions.foldl (processTx address) acc)
    ([], [])).1

/-- Blockchain.FindUTXO (blockchain.go): the unlockable outputs of every
returned transaction occurrence. -/
def findUTXO (blocks : List Block) (address : String) : List TXOutput :=
  (findUnspentTransactions blocks address).flatMap
    (fun tx => tx.Vout.filter (fun o => o.CanBeUnlockedWith address))

/-- CLI.getBalance (cli.go): sum of the values of the found outputs. -/
def getBalance (blocks : List Block) (address : String) : Int :=
  (findUTXO blocks address).foldl (fun b o => b + o.Value) 0

/-- The inner output loop of Blockchain.FindSpendableOutputs
(blockchain.go); the boolean records whether break Work was taken. -/
def spendInner (address : String) (amount : Int) (txid : Bytes) :
    List (Nat × TXOutput) → Int → SpentMap → Int × SpentMap × Bool
  | [], acc, m => (acc, m, false)
  | (outIdx, out) :: rest, acc, m =>
    if out.CanBeUnlockedWith address && decide (acc < amount) then
      let acc2 := acc + out.Value
      let m2 := smAppend m txid (outIdx : Int)
      if amount ≤ acc2 then (acc2, m2, true)
      else spendInner address amount txid rest acc2 m2
    else spendInner address amount txid rest acc m

/-- The outer transaction loop of Blockchain.FindSpendableOutputs
(blockchain.go). -/
def spendOuter (address : String) (amount : Int) :
    List Transaction → Int → SpentMap → Int × SpentMap
  | [], acc, m => (acc, m)
  | tx :: rest, acc, m =>
    let r := spendInner address amount tx.ID tx.Vout.enum acc m
    if r.2.2 then (r.1, r.2.1) else spendOuter address amount rest r.1 r.2.1

/-- Blockchain.FindSpendableOutputs (blockchain.go). -/
def FindSpendableOutputs (blocks : List Block) (address : String)
    (amount : Int) : Int × SpentMap :=
  spendOuter address amount (findUnspentTransactions blocks address) 0 []

/-- NewUTXOTransaction (transaction.go): select spendable outputs, fail on
insufficient funds, otherwise build one input per selected output, the
payment output and, when change remains, the change output, assigning the
id last.  The Go log.Panic is modeled as an error value. -/
def NewUTXOTransaction (h : HashFn) (blocks : List Block)
    (fromAddr toAddr : String) (amount : Int) : Except String Transaction :=
  let r := FindSpendableOutputs blocks fromAddr amount
  if r.1 < amount then .error "ERROR: Not enough funds"
  else
    let inputs := r.2.flatMap (fun p => p.2.map (fun out =>
      ({ Txid := p.1, Vout := out, ScriptSig := fromAddr } : TXInput)))
    let outputs := [({ Value := amount, ScriptPubKey := toAddr } : TXOutput)]
    let outputs := if amount < r.1 then
        outputs ++ [{ Value := r.1 - amount, ScriptPubKey := fromAddr }]
      else outputs
    .ok (Transaction.SetID h { ID := [], Vin := inputs, Vout := outputs })

/-- Follows the spec words for C7: the candidate outputs offered by the
UTXO scan for one transaction occurrence, in output index order. -/
def txSpendCandidates (address : String) (tx : Transaction) :
    List ((Bytes × Int) × Int) :=
  tx.Vout.enum.filterMap (fun p =>
    if p.2.CanBeUnlockedWith address then some ((tx.ID, (p.1 : Int)), p.2.Value)
    else none)

/-- Follows the spec words for C7: all candidate outputs in the iteration
order produced by the UTXO scan. -/
def utxoScanOrder (blocks : List Block) (address : String) :
    List ((Bytes × Int) × Int) :=
  (findUnspentTransactions blocks address).flatMap (txSpendCandidates address)

/-- Follows the spec words for C7: consume candidates in order, accumulate
their values, and stop as soon as the running total reaches the requested
amount, returning the total and the chosen identifiers. -/
def specGreedySelect {β : Type} (amount : Int) :
    List (β × Int) → Int → Int × List β
  | [], acc => (acc, [])
  | (x, v) :: rest, acc =>
    if amount ≤ acc then (acc, [])
    else
      let r := specGreedySelect amount rest (acc + v)
      (r.1, x :: r.2)

/-- Groups a flat selection list into the map shape the code returns. -/
def groupSelected (sel : List (Bytes × Int)) : SpentMap :=
  sel.foldl (fun m p => smAppend m p.1 p.2) []

/-- The persistent chain state: the BoltDB blocks bucket as the history of
puts, newest first, plus the in-memory tip. -/
structure ChainState where
  store : List (Bytes × Bytes)
  tip : Bytes

/-- A database put; the bucket keeps the full history and reads see the
newest binding. -/
def bput (store : List (Bytes × Bytes)) (k v : Bytes) : List (Bytes × Bytes) :=
  (k, v) :: store

/-- A database get, newest binding first. -/
def bget : List (Bytes × Bytes) → Bytes → Option Bytes
  | [], _ => none
  | (k, v) :: r, key => if k = key then some v else bget r key

/-- The reserved key l holding the tip pointer (blockchain.go). -/
def lKey : Bytes := [108]

/-- NewGenesisBlock (block.go). -/
def NewGenesisBlock (h : HashFn) (coinbase : Transaction) (now : Int) : Block :=
  NewBlock h [coinbase] [] now

/-- CreateBlockchain (blockchain.go): build the genesis coinbase and block,
store the block under its hash, point l at it and set the tip. -/
def CreateBlockchain (h : HashFn) (address : String) (now : Int) : ChainState :=
  let cbtx := NewCoinbaseTX h address genesisCoinbaseData
  let genesis := NewGenesisBlock h cbtx now
  let store := bput (bput [] genesis.Hash genesis.Serialize) lKey genesis.Hash
  { store := store, tip := genesis.Hash }

/-- Blockchain.MineBlock (blockchain.go): read the last hash from l, mine a
new block on top of it, store it under its hash and advance l and the
tip. -/
def MineBlock (h : HashFn) (s : ChainState) (txs : List Transaction)
    (now : Int) : ChainState :=
  let lastHash := (bget s.store lKey).getD []
  let newBlock := NewBlock h txs lastHash now
  let store := bput (bput s.store newBlock.Hash newBlock.Serialize) lKey newBlock.Hash
  { store := store, tip := newBlock.Hash }

/-- Chain states reachable solely through bootstrap and block admission. -/
inductive Reachable (h : HashFn) : ChainState → Prop
  | boot (address : String) (now : Int) : Reachable h (CreateBlockchain h address now)
  | mine (s : ChainState) (txs : List Transaction) (now : Int) :
      Reachable h s → Reachable h (MineBlock h s txs now)

/-- Repeated BlockchainIterator.Next (blockchain.go): read the block at the
current hash, rewind to its previous hash, stop after a block whose
previous hash is empty.  Fuel bounds the walk; a missing key or an
undecodable record aborts it. -/
def chainWalk (store : List (Bytes × Bytes)) : Nat → Bytes → Option (List Block)
  | 0, _ => none
  | fuel+1, cur =>
    match bget store cur with
    | none => none
    | some bytes =>
      match DeserializeBlock bytes with
      | none => none
      | some b =>
        if b.PrevBlockHash.length = 0 then some [b]
        else
          match chainWalk store fuel b.PrevBlockHash with
          | some rest => some (b :: rest)
          | none => none

/-- The full iterator walk from the tip, with fuel the store size. -/
def walkBlocks (s : ChainState) : Option (List Block) :=
  chainWalk s.store s.store.length s.tip

/-- CLI.send (cli.go): build the spend transaction, then mine a block with
it.  The Go log.Panic on insufficient funds aborts the process before any
database write; this is modeled by returning the untouched state together
with the panic message. -/
def cliSend (h : HashFn) (s : ChainState) (fromAddr toAddr : String)
    (amount : Int) (now : Int) : ChainState × Option String :=
  match walkBlocks s with
  | none => (s, some "corrupt chain store")
  | some blocks =>
    match NewUTXOTransaction h blocks fromAddr toAddr amount with
    | .error e => (s, some e)
    | .ok tx => (MineBlock h s [tx] now, none)

/-- The exact store contents determined by a spine of blocks, newest
first: for each block, first its record put, then the l update. -/
def storeOf : List Block → List (Bytes × Bytes)
  | [] => []
  | b :: rest => (lKey, b.Hash) :: (b.Hash, b.Serialize) :: storeOf rest

/-- The stored hash of a mined block is the abstract hash of one of its own
prepared headers. -/
def HashShape (h : HashFn) (b : Block) : Prop :=
  ∃ m : Int, b.Hash = h (prepareData h b m)

/-- A well-formed spine, newest first: every block links to the next, every
hash has mined shape, and the oldest block has an empty previous hash. -/
def SpineOK (h : HashFn) : List Block → Prop
  | [] => False
  | [b] => b.PrevBlockHash = [] ∧ HashShape h b
  | b :: b2 :: rest => b.PrevBlockHash = b2.Hash ∧ HashShape h b ∧ SpineOK h (b2 :: rest)

/-- The inductive invariant of reachable chain states. -/
def ChainInv (h : HashFn) (s : ChainState) : Prop :=
  ∃ bs : List Block, s.store = storeOf bs ∧
    (∃ b0 rest, bs = b0 :: rest ∧ s.tip = b0.Hash) ∧
    SpineOK h bs ∧ (bs.map Block.Hash).Nodup

/-- A concrete transaction with two outputs locked to the address A. -/
def txTwoOuts : Transaction :=
  { ID := [1], Vin := [],
    Vout := [{ Value := 3, ScriptPubKey := "A" }, { Value := 4, ScriptPubKey := "A" }] }

/-- A concrete block holding only that transaction. -/
def blkTwoOuts : Block :=
  { Timestamp := 0, Transactions := [txTwoOuts], PrevBlockHash := [],
    Hash := [], Nonce := 0 }

/-- A concrete stored genesis-shaped block used as a chain-walk witness. -/
def gBlkC5 : Block :=
  { Timestamp := 0, Transactions := [], PrevBlockHash := [], Hash := [7], Nonce := 0 }

/-- A concrete chain state holding only that block. -/
def csC5 : ChainState :=
  { store := [([7], gBlkC5.Serialize)], tip := [7] }

/-- Updating hash and nonce does not change the prepared header. -/
theorem prepareData_update (h : HashFn) (b : Block) (x : Bytes) (y n : Int) :
    prepareData h { b with Hash := x, Nonce := y } n = prepareData h b n := rfl

/-- The mining loop returns the first satisfying nonce when one lies in the
remaining fuel window. -/
theorem powRunFrom_found (h : HashFn) (b : Block) (n : Nat)
    (hsat : hashToNat (h (prepareData h b (n : Int))) < powTarget) :
    ∀ fuel start lastHash, start ≤ n → n < start + fuel →
      (∀ m, start ≤ m → m < n → ¬ hashToNat (h (prepareData h b (m : Int))) < powTarget) →
      powRunFrom h b fuel start lastHash = (n, h (prepareData h b (n : Int))) := by
  intro fuel
  induction fuel with
  | zero =>
    intro start lastHash h1 h2 _
    omega
  | succ f ih =>
    intro start lastHash h1 h2 hmiss
    rcases Nat.eq_or_lt_of_le h1 with heq | hlt
    · subst heq
      simp [powRunFrom, hsat]
    · have hm : ¬ hashToNat (h (prepareData h b (start : Int))) < powTarget :=
        hmiss start le_rfl hlt
      simp only [powRunFrom, hm, if_false]
      exact ih (start+1) (h (prepareData h b (start : Int))) hlt (by omega)
        (fun m hm1 hm2 => hmiss m (by omega) hm2)

/-- The mining loop runs out: if no nonce in the fuel window satisfies the
target, the loop exits with nonce start + fuel and the hash of the last
tried nonce. -/
theorem powRunFrom_exhaust (h : HashFn) (b : Block) :
    ∀ fuel start lastHash, 1 ≤ fuel →
      (∀ m : Nat, m < start + fuel → ¬ hashToNat (h (prepareData h b (m : Int))) < powTarget) →
      powRunFrom h b fuel start lastHash
        = (start + fuel, h (prepareData h b ((start + fuel - 1 : Nat) : Int))) := by
  intro fuel
  induction fuel with
  | zero => intro start lastHash h1 _; omega
  | succ f ih =>
    intro start lastHash _ hmiss
    have hm : ¬ hashToNat (h (prepareData h b (start : Int))) < powTarget :=
      hmiss start (by omega)
    simp only [powRunFrom, hm, if_false]
    rcases Nat.eq_zero_or_pos f with hf | hf
    · subst hf
      simp [powRunFrom, Nat.add_sub_cancel]
    · rw [ih (start+1) (h (prepareData h b (start : Int))) hf
        (fun m hm1 => hmiss m (by omega))]
      have e1 : start + 1 + f = start + (f + 1) := by omega
      rw [e1]

/-- C1: for every block, mining iterates the nonce from 0 upward and returns
the first nonce n, with its hash, whose hash of the prepared header bytes,
read as an unsigned big-endian integer, is strictly below the target
2 ^ (256 - 12); the prepared header is the concatenation of the previous
block hash, the transactions digest and the big-endian encodings of
timestamp, difficulty bits and nonce. -/
theorem c1_run_returns_first_satisfying_nonce (h : HashFn) (b : Block) (n : Nat)
    (hlt : n < maxNonce)
    (hsat : hashToNat (h (prepareData h b (n : Int))) < powTarget)
    (hmin : ∀ m, m < n → ¬ hashToNat (h (prepareData h b (m : Int))) < powTarget) :
    powRun h b = (n, h (prepareData h b (n : Int))) ∧
    prepareData h b (n : Int) =
      b.PrevBlockHash ++ hashTransactions h b ++ IntToHex b.Timestamp ++
        IntToHex 12 ++ IntToHex (n : Int) ∧
    powTarget = 2 ^ (256 - 12) := by
  refine ⟨?_, rfl, by decide⟩
  exact powRunFrom_found h b n hsat maxNonce 0 _ (Nat.zero_le n) (by omega)
    (fun m _ hm => hmin m hm)

/-- C1 witness: at the all-zero hash function, nonce 0 already satisfies the
target and Run returns it. -/
theorem c1_witness :
    powRun constHashZero blkZero = (0, List.replicate 32 0) :=
  (c1_run_returns_first_satisfying_nonce constHashZero blkZero 0 (by decide)
    (by decide) (fun m hm => absurd hm (Nat.not_lt_zero m))).1

/-- C2: every block produced by NewBlock, given that some nonce below the
ceiling meets the target for its header material, validates, and rehashing
the prepared header at its stored nonce reproduces its stored hash. -/
theorem c2_new_block_validates (h : HashFn) (txs : List Transaction)
    (prev : Bytes) (now : Int)
    (hex : ∃ n, n < maxNonce ∧
      hashToNat (h (prepareData h (mkBaseBlock txs prev now) (n : Int))) < powTarget) :
    powValidate h (NewBlock h txs prev now) = true ∧
    h (prepareData h (NewBlock h txs prev now) (NewBlock h txs prev now).Nonce)
      = (NewBlock h txs prev now).Hash := by
  classical
  obtain ⟨n, hn, hp⟩ := hex
  have hpred : ∃ m : Nat,
      hashToNat (h (prepareData h (mkBaseBlock txs prev now) (m : Int))) < powTarget :=
    ⟨n, hp⟩
  set n0 := Nat.find hpred with hn0
  have hspec := Nat.find_spec hpred
  have hmin : ∀ m, m < n0 →
      ¬ hashToNat (h (prepareData h (mkBaseBlock txs prev now) (m : Int))) < powTarget :=
    fun m hm => Nat.find_min hpred hm
  have hlt : n0 < maxNonce := lt_of_le_of_lt (Nat.find_min' hpred hp) hn
  have hrun : powRun h (mkBaseBlock txs prev now)
      = (n0, h (prepareData h (mkBaseBlock txs prev now) (n0 : Int))) :=
    powRunFrom_found h (mkBaseBlock txs prev now) n0 hspec maxNonce 0 _
      (Nat.zero_le n0) (by omega) (fun m _ hm => hmin m hm)
  have hblock : NewBlock h txs prev now
      = { mkBaseBlock txs prev now with
          Hash := h (prepareData h (mkBaseBlock txs prev now) (n0 : Int)),
          Nonce := (n0 : Int) } := by
    simp [NewBlock, hrun]
  rw [hblock]
  constructor
  · simp [powValidate, prepareData_update, hspec]
  · simp [prepareData_update]

/-- C2 witness: with the all-zero hash function every mining attempt
succeeds at nonce 0, so the assembled block validates. -/
theorem c2_witness :
    powValidate constHashZero (NewBlock constHashZero [] [] 0) = true :=
  (c2_new_block_validates constHashZero [] [] 0 ⟨0, by decide, by decide⟩).1

/-- C4 counterexample: when every hash lies above the target, Run does not
fail; it returns the pair of the nonce ceiling and the hash of the last
tried nonce, a hash that does not meet the target.  No error value exists
anywhere in the mining code. -/
theorem c4_counterexample :
    powRun constHashFF blkZero = (maxNonce, List.replicate 32 255) ∧
    ¬ hashToNat (List.replicate 32 255) < powTarget := by
  constructor
  · have := powRunFrom_exhaust constHashFF blkZero maxNonce 0
      (List.replicate 32 0) (by decide)
      (fun m _ => (by decide : ¬ hashToNat (List.replicate 32 255) < powTarget))
    simpa [powRun] using this
  · decide

/-- C4 (amended): if no nonce strictly below the ceiling 10000000 produces a
hash below the target, Run returns the ceiling itself as the nonce together
with the hash computed for nonce 9999999; no error is raised and the search
is simply abandoned. -/
theorem c4_run_exhaustion_returns_ceiling (h : HashFn) (b : Block)
    (hmiss : ∀ m : Nat, m < maxNonce → ¬ hashToNat (h (prepareData h b (m : Int))) < powTarget) :
    powRun h b = (maxNonce, h (prepareData h b ((maxNonce - 1 : Nat) : Int))) := by
  have := powRunFrom_exhaust h b maxNonce 0 (List.replicate 32 0)
    (by decide) (fun m hm => hmiss m (by omega))
  simpa [powRun] using this

/-- C4 witness: instantiating the exhaustion theorem at the all-255 hash
function and a concrete block. -/
theorem c4_witness :
    powRun constHashFF blkZero
      = (maxNonce, constHashFF (prepareData constHashFF blkZero ((maxNonce - 1 : Nat) : Int))) :=
  c4_run_exhaustion_returns_ceiling constHashFF blkZero
    (fun m _ => (by decide : ¬ hashToNat (List.replicate 32 255) < powTarget))

/-- C8: IsCoinbase holds exactly of transactions with a single input whose
source transaction id is empty and whose output index is -1, and
NewCoinbaseTX builds exactly such a transaction, with one output of value
subsidy = 10 locked to the recipient address. -/
theorem c8_coinbase_characterization (h : HashFn) (toAddr data : String)
    (tx : Transaction) :
    (tx.IsCoinbase = true ↔ ∃ i : TXInput, tx.Vin = [i] ∧ i.Txid = [] ∧ i.Vout = -1) ∧
    (NewCoinbaseTX h toAddr data).IsCoinbase = true ∧
    (NewCoinbaseTX h toAddr data).Vout = [{ Value := subsidy, ScriptPubKey := toAddr }] ∧
    subsidy = 10 := by
  refine ⟨?_, ?_, ?_, rfl⟩
  · obtain ⟨id, vin, vout⟩ := tx
    match vin with
    | [] => simp [Transaction.IsCoinbase]
    | [i] => simp [Transaction.IsCoinbase, List.length_eq_zero]
    | i :: j :: rest => simp [Transaction.IsCoinbase]
  · simp [NewCoinbaseTX, Transaction.SetID, Transaction.IsCoinbase]
  · simp [NewCoinbaseTX, Transaction.SetID]

/-- Reading back exactly the appended tokens. -/
theorem readN_append (xs r : List Nat) : readN xs.length (xs ++ r) = some (xs, r) := by
  induction xs with
  | nil => rfl
  | cons x xs ih => simp [readN, ih]

/-- Byte string decoding inverts encoding. -/
theorem decBytes_enc (bs : Bytes) (r : List Nat) :
    decBytes (encBytes bs ++ r) = some (bs, r) := by
  simp [encBytes, decBytes, readN_append]

/-- Integer decoding inverts encoding. -/
theorem decInt_enc (i : Int) (r : List Nat) :
    decInt (encInt i ++ r) = some (i, r) := by
  cases i <;> rfl

/-- Character list decoding inverts encoding. -/
theorem readChars_append (cs : List Char) (r : List Nat) :
    readChars cs.length (cs.map Char.toNat ++ r) = some (cs, r) := by
  induction cs with
  | nil => rfl
  | cons c cs ih => simp [readChars, ih, Char.ofNat_toNat]

/-- String decoding inverts encoding. -/
theorem decString_enc (s : String) (r : List Nat) :
    decString (encString s ++ r) = some (s, r) := by
  obtain ⟨data⟩ := s
  simp [encString, decString, readChars_append]

/-- Counted list decoding inverts encoding, given the element inverse. -/
theorem decListN_enc {α : Type} (dec : List Nat → Option (α × List Nat))
    (enc : α → List Nat)
    (helem : ∀ x r, dec (enc x ++ r) = some (x, r)) :
    ∀ (xs : List α) (r : List Nat),
      decListN dec xs.length ((xs.map enc).flatten ++ r) = some (xs, r) := by
  intro xs
  induction xs with
  | nil => intro r; rfl
  | cons x xs ih =>
    intro r
    simp only [List.map_cons, List.flatten_cons, List.length_cons, List.append_assoc]
    simp [decListN, helem, ih]

/-- Sequence decoding inverts encoding, given the element inverse. -/
theorem decListOf_enc {α : Type} (dec : List Nat → Option (α × List Nat))
    (enc : α → List Nat)
    (helem : ∀ x r, dec (enc x ++ r) = some (x, r))
    (xs : List α) (r : List Nat) :
    decListOf dec (encListOf enc xs ++ r) = some (xs, r) := by
  simp [encListOf, decListOf, decListN_enc dec enc helem]

/-- TXInput decoding inverts encoding. -/
theorem decTXInput_enc (i : TXInput) (r : List Nat) :
    decTXInput (encTXInput i ++ r) = some (i, r) := by
  obtain ⟨txid, vout, sig⟩ := i
  simp [encTXInput, decTXInput, List.append_assoc, decBytes_enc, decInt_enc, decString_enc]

/-- TXOutput decoding inverts encoding. -/
theorem decTXOutput_enc (o : TXOutput) (r : List Nat) :
    decTXOutput (encTXOutput o ++ r) = some (o, r) := by
  obtain ⟨v, pk⟩ := o
  simp [encTXOutput, decTXOutput, List.append_assoc, decInt_enc, decString_enc]

/-- Transaction decoding inverts encoding. -/
theorem decTx_enc (t : Transaction) (r : List Nat) :
    decTx (serializeTx t ++ r) = some (t, r) := by
  obtain ⟨id, vin, vout⟩ := t
  simp [serializeTx, decTx, List.append_assoc, decBytes_enc,
    decListOf_enc decTXInput encTXInput decTXInput_enc,
    decListOf_enc decTXOutput encTXOutput decTXOutput_enc]

/-- Block decoding inverts encoding. -/
theorem decBlock_enc (b : Block) (r : List Nat) :
    decBlock (b.Serialize ++ r) = some (b, r) := by
  obtain ⟨ts, txs, prev, hash, nonce⟩ := b
  simp [Block.Serialize, decBlock, List.append_assoc, decInt_enc, decBytes_enc,
    decListOf_enc decTx serializeTx decTx_enc]

/-- C9: deserializing the serialization of any block yields the same block,
field by field. -/
theorem c9_serialize_roundtrip (b : Block) :
    DeserializeBlock b.Serialize = some b := by
  have h := decBlock_enc b []
  rw [List.append_nil] at h
  simp [DeserializeBlock, h]

/-- The output scan of FindUnspentTransactions appends one copy of the
transaction per output passing the spent and unlock checks. -/
theorem filterMap_occurrences (spentList : List Int) (address : String)
    (tx : Transaction) (l : List (Nat × TXOutput)) :
    l.filterMap (fun p =>
      if spentList.contains (p.1 : Int) then none
      else if p.2.CanBeUnlockedWith address then some tx else none)
    = List.replicate (l.countP (fun p =>
        !spentList.contains (p.1 : Int) && p.2.CanBeUnlockedWith address)) tx := by
  induction l with
  | nil => rfl
  | cons x xs ih =>
    cases hc : spentList.contains (x.1 : Int) <;>
      cases hu : x.2.CanBeUnlockedWith address <;>
        simp only [List.filterMap_cons, List.countP_cons, hc, hu, Bool.not_true,
          Bool.not_false, Bool.false_and, Bool.true_and, Bool.false_eq_true,
          if_false, if_true, ite_true, ite_false, List.replicate_succ, ih,
          Nat.add_zero, Bool.true_eq_false, ↓reduceIte]

/-- Sums of output values through foldl. -/
theorem foldl_add_value (l : List TXOutput) (init : Int) :
    l.foldl (fun b o => b + o.Value) init = init + (l.map TXOutput.Value).sum := by
  induction l generalizing init with
  | nil => simp
  | cons x xs ih => simp [ih, add_assoc]

/-- flatMap over a replicated list. -/
theorem flatMap_replicate {α β : Type} (n : Nat) (a : α) (f : α → List β) :
    (List.replicate n a).flatMap f = (List.replicate n (f a)).flatten := by
  induction n with
  | zero => rfl
  | succ k ih => simp [List.replicate_succ, ih]

/-- C10: FindUnspentTransactions appends the whole containing transaction
once per unspent output lockable by the address; in particular, for a block
holding a single transaction all of whose outputs are locked to the
address, the transaction occurs once per output, FindUTXO repeats the whole
output list once per occurrence, and the balance multiplies the output sum
by the output count. -/
theorem c10_duplicate_accumulation :
    (∀ (address : String) (acc : List Transaction × SpentMap) (tx : Transaction),
      (processTx address acc tx).1 = acc.1 ++ List.replicate
        (tx.Vout.enum.countP (fun p =>
          !((smLookup acc.2 tx.ID).getD []).contains (p.1 : Int) &&
            p.2.CanBeUnlockedWith address)) tx) ∧
    (∀ (address : String) (tx : Transaction) (blk : Block),
      blk.Transactions = [tx] →
      (∀ o ∈ tx.Vout, o.ScriptPubKey = address) →
      findUnspentTransactions [blk] address = List.replicate tx.Vout.length tx ∧
      findUTXO [blk] address = (List.replicate tx.Vout.length tx.Vout).flatten ∧
      getBalance [blk] address
        = (tx.Vout.length : Int) * (tx.Vout.map TXOutput.Value).sum ∧
      (2 ≤ tx.Vout.length → 2 ≤ (findUnspentTransactions [blk] address).length)) := by
  have hocc : ∀ (address : String) (acc : List Transaction × SpentMap) (tx : Transaction),
      (processTx address acc tx).1 = acc.1 ++ List.replicate
        (tx.Vout.enum.countP (fun p =>
          !((smLookup acc.2 tx.ID).getD []).contains (p.1 : Int) &&
            p.2.CanBeUnlockedWith address)) tx := by
    intro address acc tx
    have hrw := filterMap_occurrences ((smLookup acc.2 tx.ID).getD []) address tx
      tx.Vout.enum
    simp only [processTx]
    rw [hrw]
  refine ⟨hocc, ?_⟩
  intro address tx blk hblk hout
  have hunlock : ∀ o ∈ tx.Vout, o.CanBeUnlockedWith address = true := by
    intro o ho
    simp [TXOutput.CanBeUnlockedWith, hout o ho]
  have hcount : tx.Vout.enum.countP (fun p => p.2.CanBeUnlockedWith address)
      = tx.Vout.length := by
    rw [← List.enum_length (l := tx.Vout)]
    rw [List.countP_eq_length]
    intro p hp
    obtain ⟨i, x⟩ := p
    obtain ⟨hi, hx⟩ := List.mem_enum hp
    have hmem : x ∈ tx.Vout := by
      rw [hx]
      exact List.getElem_mem hi
    exact hunlock x hmem
  have hfind : findUnspentTransactions [blk] address = List.replicate tx.Vout.length tx := by
    have : findUnspentTransactions [blk] address = (processTx address ([], []) tx).1 := by
      simp [findUnspentTransactions, hblk]
    rw [this, hocc]
    simp [smLookup, hcount]
  refine ⟨hfind, ?_, ?_, ?_⟩
  · rw [findUTXO, hfind, flatMap_replicate]
    congr 1
    congr 1
    exact List.filter_eq_self.mpr hunlock
  · rw [getBalance, findUTXO, hfind, flatMap_replicate]
    rw [List.filter_eq_self.mpr hunlock]
    rw [foldl_add_value]
    rw [List.map_flatten, List.map_replicate]
    rw [List.sum_flatten, List.map_replicate, List.sum_replicate]
    simp [nsmul_eq_mul]
  · intro h2
    rw [hfind, List.length_replicate]
    exact h2

/-- C10 witness: on the concrete block the transaction occurs twice, and
the balance 14 double-counts the true output sum 7. -/
theorem c10_witness :
    findUnspentTransactions [blkTwoOuts] "A" = [txTwoOuts, txTwoOuts] ∧
    getBalance [blkTwoOuts] "A" = 14 := by
  have h := (c10_duplicate_accumulation.2 "A" txTwoOuts blkTwoOuts rfl
    (by intro o ho; fin_cases ho <;> rfl))
  refine ⟨?_, ?_⟩
  · rw [h.1]; rfl
  · rw [h.2.2.1]; rfl

/-- Greedy selection takes nothing once the total is sufficient. -/
theorem specGreedySelect_stopped {β : Type} (amount : Int) (l : List (β × Int))
    (acc : Int) (h : amount ≤ acc) : specGreedySelect amount l acc = (acc, []) := by
  cases l with
  | nil => rfl
  | cons x rest =>
    obtain ⟨b, v⟩ := x
    simp [specGreedySelect, h]

/-- Greedy selection over an appended stream composes. -/
theorem specGreedySelect_append {β : Type} (amount : Int) (xs ys : List (β × Int)) :
    ∀ acc : Int,
      specGreedySelect amount (xs ++ ys) acc
        = ((specGreedySelect amount ys (specGreedySelect amount xs acc).1).1,
           (specGreedySelect amount xs acc).2 ++
             (specGreedySelect amount ys (specGreedySelect amount xs acc).1).2) := by
  induction xs with
  | nil =>
    intro acc
    simp [specGreedySelect]
  | cons x xs ih =>
    intro acc
    obtain ⟨b, v⟩ := x
    by_cases hle : amount ≤ acc
    · rw [specGreedySelect_stopped amount _ acc hle,
        specGreedySelect_stopped amount _ acc hle,
        specGreedySelect_stopped amount _ acc hle]
      simp
    · simp only [List.cons_append, specGreedySelect, if_neg hle, List.append_eq]
      rw [ih (acc + v)]

/-- The inner loop of FindSpendableOutputs agrees with greedy selection on
the qualifying outputs of one transaction occurrence; the boolean is the
break flag. -/
theorem spendInner_greedy (address : String) (amount : Int) (txid : Bytes) :
    ∀ (pairs : List (Nat × TXOutput)) (acc : Int) (m : SpentMap),
      spendInner address amount txid pairs acc m
        = ((specGreedySelect amount (pairs.filterMap (fun p =>
              if p.2.CanBeUnlockedWith address then
                some ((txid, (p.1 : Int)), p.2.Value)
              else none)) acc).1,
           (specGreedySelect amount (pairs.filterMap (fun p =>
              if p.2.CanBeUnlockedWith address then
                some ((txid, (p.1 : Int)), p.2.Value)
              else none)) acc).2.foldl (fun mm q => smAppend mm q.1 q.2) m,
           (decide (amount ≤ (specGreedySelect amount (pairs.filterMap (fun p =>
              if p.2.CanBeUnlockedWith address then
                some ((txid, (p.1 : Int)), p.2.Value)
              else none)) acc).1) && !decide (amount ≤ acc))) := by
  intro pairs
  induction pairs with
  | nil =>
    intro acc m
    simp [spendInner, specGreedySelect]
  | cons x rest ih =>
    intro acc m
    obtain ⟨i, o⟩ := x
    cases hu : o.CanBeUnlockedWith address with
    | false =>
      simp only [spendInner, List.filterMap_cons, hu, Bool.false_and,
        Bool.false_eq_true, if_false, ite_false]
      exact ih acc m
    | true =>
      by_cases hacc : acc < amount
      · by_cases hstop : amount ≤ acc + o.Value
        · simp only [spendInner, List.filterMap_cons, hu, Bool.true_and,
            ite_true, if_true, decide_eq_true_eq]
          rw [if_pos (by simp [hacc]), if_pos hstop]
          simp only [specGreedySelect, if_neg (not_le.mpr hacc)]
          rw [specGreedySelect_stopped amount _ _ hstop]
          simp [hstop, not_le.mpr hacc]
        · simp only [spendInner, List.filterMap_cons, hu, Bool.true_and,
            ite_true, if_true]
          rw [if_pos (by simp [hacc]), if_neg hstop]
          rw [ih (acc + o.Value) (smAppend m txid (i : Int))]
          simp only [specGreedySelect, if_neg (not_le.mpr hacc)]
          simp [List.foldl_cons, hstop, hacc]
      · have hle : amount ≤ acc := not_lt.mp hacc
        simp only [spendInner, List.filterMap_cons, hu, Bool.true_and]
        rw [if_neg (by simp [hacc])]
        rw [ih acc m]
        rw [specGreedySelect_stopped amount _ acc hle]
        rw [specGreedySelect_stopped amount _ acc hle]

/-- The outer loop of FindSpendableOutputs agrees with greedy selection over
the whole candidate stream. -/
theorem spendOuter_greedy (address : String) (amount : Int) :
    ∀ (txs : List Transaction) (acc : Int) (m : SpentMap),
      spendOuter address amount txs acc m
        = ((specGreedySelect amount (txs.flatMap (txSpendCandidates address)) acc).1,
           (specGreedySelect amount (txs.flatMap (txSpendCandidates address)) acc).2.foldl
             (fun mm q => smAppend mm q.1 q.2) m) := by
  intro txs
  induction txs with
  | nil =>
    intro acc m
    simp [spendOuter, specGreedySelect]
  | cons tx rest ih =>
    intro acc m
    simp only [spendOuter]
    rw [spendInner_greedy address amount tx.ID tx.Vout.enum acc m]
    simp only [List.flatMap_cons, txSpendCandidates]
    rw [specGreedySelect_append]
    by_cases hacc : amount ≤ acc
    · have hG1 : specGreedySelect amount (tx.Vout.enum.filterMap (fun p =>
          if p.2.CanBeUnlockedWith address then
            some ((tx.ID, (p.1 : Int)), p.2.Value)
          else none)) acc = (acc, []) :=
        specGreedySelect_stopped amount _ acc hacc
      rw [hG1]
      simp only [decide_eq_true_eq, decide_eq_true hacc, Bool.not_true, Bool.and_false,
        Bool.false_eq_true, if_false, ite_false, List.foldl_nil, List.nil_append]
      exact ih acc m
    · simp only [decide_eq_false hacc, Bool.not_false, Bool.and_true]
      by_cases hstop : amount ≤ (specGreedySelect amount (tx.Vout.enum.filterMap (fun p =>
          if p.2.CanBeUnlockedWith address then
            some ((tx.ID, (p.1 : Int)), p.2.Value)
          else none)) acc).1
      · rw [specGreedySelect_stopped amount (rest.flatMap (txSpendCandidates address)) _ hstop]
        simp [hstop]
      · simp only [decide_eq_false hstop, Bool.false_eq_true, if_false, ite_false]
        rw [ih]
        rw [List.foldl_append]

/-- C7: FindSpendableOutputs consumes unspent outputs in the iteration
order produced by the UTXO scan, accumulating their values and stopping as
soon as the running total reaches the requested amount; it returns the
accumulated value and exactly the chosen transaction id and output index
pairs, grouped into the result map, with no optimization of input count or
change. -/
theorem c7_spendable_outputs_are_greedy (blocks : List Block)
    (address : String) (amount : Int) :
    FindSpendableOutputs blocks address amount
      = ((specGreedySelect amount (utxoScanOrder blocks address) 0).1,
         groupSelected (specGreedySelect amount (utxoScanOrder blocks address) 0).2) := by
  rw [FindSpendableOutputs, spendOuter_greedy]
  rfl

/-- C6: every successful spend-building call returns a transaction with
exactly one input per selected transaction id and output index pair, each
carrying the sender address as unlock data, a first output paying the
recipient, a change output back to the sender present exactly when the
accumulated value exceeds the amount, and an id assigned last over the
final inputs and outputs. -/
theorem c6_spend_transaction_shape (h : HashFn) (blocks : List Block)
    (fromAddr toAddr : String) (amount : Int)
    (hacc : amount ≤ (FindSpendableOutputs blocks fromAddr amount).1) :
    ∃ tx : Transaction,
      NewUTXOTransaction h blocks fromAddr toAddr amount = Except.ok tx ∧
      tx.Vin = (FindSpendableOutputs blocks fromAddr amount).2.flatMap (fun p =>
        p.2.map (fun out =>
          ({ Txid := p.1, Vout := out, ScriptSig := fromAddr } : TXInput))) ∧
      tx.Vout = (if amount < (FindSpendableOutputs blocks fromAddr amount).1 then
          [({ Value := amount, ScriptPubKey := toAddr } : TXOutput),
           { Value := (FindSpendableOutputs blocks fromAddr amount).1 - amount,
             ScriptPubKey := fromAddr }]
        else [{ Value := amount, ScriptPubKey := toAddr }]) ∧
      tx.ID = h (serializeTx { ID := [], Vin := tx.Vin, Vout := tx.Vout }) := by
  refine ⟨Transaction.SetID h
    { ID := [],
      Vin := (FindSpendableOutputs blocks fromAddr amount).2.flatMap (fun p =>
        p.2.map (fun out =>
          ({ Txid := p.1, Vout := out, ScriptSig := fromAddr } : TXInput))),
      Vout := (if amount < (FindSpendableOutputs blocks fromAddr amount).1 then
          [({ Value := amount, ScriptPubKey := toAddr } : TXOutput),
           { Value := (FindSpendableOutputs blocks fromAddr amount).1 - amount,
             ScriptPubKey := fromAddr }]
        else [{ Value := amount, ScriptPubKey := toAddr }]) }, ?_, ?_, ?_, ?_⟩
  · simp only [NewUTXOTransaction, if_neg (not_lt.mpr hacc)]
    by_cases hch : amount < (FindSpendableOutputs blocks fromAddr amount).1 <;>
      simp [hch]
  · rfl
  · rfl
  · rfl

/-- C6 witness: a concrete spend of 3 out of outputs 3 and 4 locked to A. -/
theorem c6_witness :
    ∃ tx : Transaction,
      NewUTXOTransaction constHashZero [blkTwoOuts] "A" "B" 3 = Except.ok tx ∧
      tx.Vin = (FindSpendableOutputs [blkTwoOuts] "A" 3).2.flatMap (fun p =>
        p.2.map (fun out =>
          ({ Txid := p.1, Vout := out, ScriptSig := "A" } : TXInput))) ∧
      tx.Vout = (if (3 : Int) < (FindSpendableOutputs [blkTwoOuts] "A" 3).1 then
          [({ Value := 3, ScriptPubKey := "B" } : TXOutput),
           { Value := (FindSpendableOutputs [blkTwoOuts] "A" 3).1 - 3,
             ScriptPubKey := "A" }]
        else [{ Value := 3, ScriptPubKey := "B" }]) ∧
      tx.ID = constHashZero (serializeTx { ID := [], Vin := tx.Vin, Vout := tx.Vout }) :=
  c6_spend_transaction_shape constHashZero [blkTwoOuts] "A" "B" 3 (by decide)

/-- Anything appended by the transaction scan body is the scanned
transaction itself. -/
theorem mem_processTx (address : String) (acc : List Transaction × SpentMap)
    (tx x : Transaction) (hx : x ∈ (processTx address acc tx).1) :
    x ∈ acc.1 ∨ x = tx := by
  simp only [processTx] at hx
  rcases List.mem_append.mp hx with h1 | h2
  · exact Or.inl h1
  · right
    rcases List.mem_filterMap.mp h2 with ⟨p, hp, hpq⟩
    by_cases h1b : ((smLookup acc.2 tx.ID).getD []).contains ((p.1 : Nat) : Int) = true
    · rw [if_pos h1b] at hpq
      exact absurd hpq (by simp)
    · rw [if_neg h1b] at hpq
      by_cases h2b : p.2.CanBeUnlockedWith address = true
      · rw [if_pos h2b] at hpq
        exact (Option.some.inj hpq).symm
      · rw [if_neg h2b] at hpq
        exact absurd hpq (by simp)

/-- Transactions returned by the inner fold come from the accumulator or
from the scanned list. -/
theorem mem_txFold (address : String) :
    ∀ (txs : List Transaction) (acc : List Transaction × SpentMap) (x : Transaction),
      x ∈ (txs.foldl (processTx address) acc).1 → x ∈ acc.1 ∨ x ∈ txs := by
  intro txs
  induction txs with
  | nil => intro acc x hx; exact Or.inl hx
  | cons tx rest ih =>
    intro acc x hx
    simp only [List.foldl_cons] at hx
    rcases ih (processTx address acc tx) x hx with h1 | h2
    · rcases mem_processTx address acc tx x h1 with ha | hb
      · exact Or.inl ha
      · exact Or.inr (by simp [hb])
    · exact Or.inr (List.mem_cons_of_mem tx h2)

/-- Transactions returned by the block fold come from the accumulator or
from some scanned block. -/
theorem mem_blockFold (address : String) :
    ∀ (blocks : List Block) (acc : List Transaction × SpentMap) (x : Transaction),
      x ∈ (blocks.foldl (fun a blk => blk.Transactions.foldl (processTx address) a) acc).1 →
      x ∈ acc.1 ∨ ∃ b ∈ blocks, x ∈ b.Transactions := by
  intro blocks
  induction blocks with
  | nil => intro acc x hx; exact Or.inl hx
  | cons blk rest ih =>
    intro acc x hx
    simp only [List.foldl_cons] at hx
    rcases ih _ x hx with h1 | h2
    · rcases mem_txFold address blk.Transactions acc x h1 with ha | hb
      · exact Or.inl ha
      · exact Or.inr ⟨blk, List.mem_cons_self blk rest, hb⟩
    · obtain ⟨b, hb1, hb2⟩ := h2
      exact Or.inr ⟨b, List.mem_cons_of_mem _ hb1, hb2⟩

/-- Every transaction returned by FindUnspentTransactions occurs in some
scanned block. -/
theorem mem_findUnspentTransactions (blocks : List Block) (address : String)
    (x : Transaction) (hx : x ∈ findUnspentTransactions blocks address) :
    ∃ b ∈ blocks, x ∈ b.Transactions := by
  rcases mem_blockFold address blocks ([], []) x hx with h1 | h2
  · exact absurd h1 (List.not_mem_nil x)
  · exact h2

/-- The values offered by the candidate scan of one transaction are the
values of its unlockable outputs. -/
theorem txSpendCandidates_values (address : String) (tid : Bytes) :
    ∀ (l : List TXOutput) (k : Nat),
      ((l.enumFrom k).filterMap (fun p =>
        if p.2.CanBeUnlockedWith address then some ((tid, (p.1 : Int)), p.2.Value)
        else none)).map Prod.snd
      = (l.filter (fun o => o.CanBeUnlockedWith address)).map TXOutput.Value := by
  intro l
  induction l with
  | nil => intro k; rfl
  | cons o rest ih =>
    intro k
    cases hu : o.CanBeUnlockedWith address <;>
      simp [List.enumFrom, List.filterMap_cons, List.filter_cons, hu, ih]

/-- The total value offered by the UTXO scan equals the derivable balance. -/
theorem scan_values_sum (blocks : List Block) (address : String) :
    ((utxoScanOrder blocks address).map Prod.snd).sum = getBalance blocks address := by
  rw [getBalance, foldl_add_value, zero_add, utxoScanOrder, findUTXO]
  induction findUnspentTransactions blocks address with
  | nil => rfl
  | cons tx rest ih =>
    simp only [List.flatMap_cons, List.map_append, List.sum_append, ih]
    have hv := txSpendCandidates_values address tx.ID tx.Vout 0
    simp only [txSpendCandidates, List.enum]
    rw [hv]

/-- Greedy selection never accumulates more than the whole stream offers,
when all offered values are nonnegative. -/
theorem specGreedySelect_fst_le {β : Type} (amount : Int) :
    ∀ (l : List (β × Int)) (acc : Int), (∀ q ∈ l, 0 ≤ q.2) →
      (specGreedySelect amount l acc).1 ≤ acc + (l.map Prod.snd).sum := by
  intro l
  induction l with
  | nil => intro acc _; simp [specGreedySelect]
  | cons q rest ih =>
    intro acc hq
    obtain ⟨b, v⟩ := q
    have hv : (0 : Int) ≤ v := hq (b, v) (List.mem_cons_self _ _)
    have hrest : ∀ r ∈ rest, (0 : Int) ≤ r.2 :=
      fun r hr => hq r (List.mem_cons_of_mem _ hr)
    by_cases hle : amount ≤ acc
    · rw [specGreedySelect_stopped amount _ acc hle]
      have hsum : (0 : Int) ≤ (rest.map Prod.snd).sum := by
        apply List.sum_nonneg
        intro x hx
        obtain ⟨r, hr, hrx⟩ := List.mem_map.mp hx
        rw [← hrx]
        exact hrest r hr
      simp only [List.map_cons, List.sum_cons]
      linarith
    · simp only [specGreedySelect, if_neg hle]
      have := ih (acc + v) hrest
      simp only [List.map_cons, List.sum_cons]
      linarith

/-- C5: a send whose amount exceeds the sender address's derivable balance
fails with the insufficient-funds error and leaves the chain state, store
and tip untouched: no block is persisted and the tip is not advanced.
Output values are nonnegative per the spec's data model. -/
theorem c5_insufficient_funds_fails (h : HashFn) (s : ChainState)
    (blocks : List Block) (fromAddr toAddr : String) (amount now : Int)
    (hwalk : walkBlocks s = some blocks)
    (hnn : ∀ b ∈ blocks, ∀ tx ∈ b.Transactions, ∀ o ∈ tx.Vout, 0 ≤ o.Value)
    (hbal : getBalance blocks fromAddr < amount) :
    cliSend h s fromAddr toAddr amount now = (s, some "ERROR: Not enough funds") := by
  have hcand : ∀ q ∈ utxoScanOrder blocks fromAddr, (0 : Int) ≤ q.2 := by
    intro q hq
    rw [utxoScanOrder] at hq
    obtain ⟨tx, htx, hq2⟩ := List.mem_flatMap.mp hq
    obtain ⟨b, hb, htxb⟩ := mem_findUnspentTransactions blocks fromAddr tx htx
    rw [txSpendCandidates] at hq2
    obtain ⟨p, hp, hpq⟩ := List.mem_filterMap.mp hq2
    by_cases hc : p.2.CanBeUnlockedWith fromAddr = true
    · rw [if_pos hc] at hpq
      obtain ⟨i, o⟩ := p
      obtain ⟨hi, hio⟩ := List.mem_enum hp
      have ho : o ∈ tx.Vout := by
        rw [hio]
        exact List.getElem_mem hi
      have := hnn b hb tx htxb o ho
      rw [← Option.some.inj hpq]
      exact this
    · rw [if_neg hc] at hpq
      exact absurd hpq (by simp)
  have hacc : (FindSpendableOutputs blocks fromAddr amount).1 < amount := by
    have h1 := specGreedySelect_fst_le amount (utxoScanOrder blocks fromAddr) 0 hcand
    rw [scan_values_sum, zero_add] at h1
    have h2 : FindSpendableOutputs blocks fromAddr amount
        = ((specGreedySelect amount (utxoScanOrder blocks fromAddr) 0).1,
           groupSelected (specGreedySelect amount (utxoScanOrder blocks fromAddr) 0).2) := by
      rw [FindSpendableOutputs, spendOuter_greedy]
      rfl
    rw [h2]
    exact lt_of_le_of_lt h1 hbal
  simp only [cliSend, hwalk]
  simp only [NewUTXOTransaction, if_pos hacc]

/-- C5 witness: on a concrete one-block chain, sending 1 from an address
with balance 0 fails and returns the untouched state. -/
theorem c5_witness :
    cliSend constHashZero csC5 "B" "C" 1 0 = (csC5, some "ERROR: Not enough funds") :=
  c5_insufficient_funds_fails constHashZero csC5 [gBlkC5] "B" "C" 1 0
    (by decide) (by decide) (by decide)

/-- Round trip helper for chain walking. -/
theorem DeserializeBlock_Serialize (b : Block) : DeserializeBlock b.Serialize = some b := by
  have hd := decBlock_enc b []
  rw [List.append_nil] at hd
  simp [DeserializeBlock, hd]

/-- natToBEBytes always produces exactly w bytes. -/
theorem natToBEBytes_length : ∀ (w n : Nat), (natToBEBytes w n).length = w := by
  intro w
  induction w with
  | zero => intro n; rfl
  | succ k ih => intro n; simp [natToBEBytes, ih]

/-- IntToHex always produces exactly 8 bytes. -/
theorem IntToHex_length (i : Int) : (IntToHex i).length = 8 := by
  simp [IntToHex, natToBEBytes_length]

/-- The prepared header splits as the previous hash followed by a fixed
56-byte suffix. -/
theorem prepareData_split (h : HashFn) (b : Block) (m : Int) :
    prepareData h b m = b.PrevBlockHash ++
      (hashTransactions h b ++ IntToHex b.Timestamp ++
        IntToHex (targetBits : Int) ++ IntToHex m) := by
  simp [prepareData, List.append_assoc]

/-- The fixed suffix of a prepared header has length 56 when the hash
function returns 32 bytes. -/
theorem prepareData_suffix_length (h : HashFn) (hlen : ∀ x, (h x).length = 32)
    (b : Block) (m : Int) :
    (hashTransactions h b ++ IntToHex b.Timestamp ++
      IntToHex (targetBits : Int) ++ IntToHex m).length = 56 := by
  simp [hashTransactions, hlen, IntToHex_length]

/-- The mining loop always returns a hash of some prepared header once it
runs at least one iteration. -/
theorem powRunFrom_shape (h : HashFn) (b : Block) :
    ∀ (fuel start : Nat) (lastHash : Bytes), 1 ≤ fuel →
      ∃ m : Nat, (powRunFrom h b fuel start lastHash).2
        = h (prepareData h b (m : Int)) := by
  intro fuel
  induction fuel with
  | zero => intro start lastHash hf; omega
  | succ f ih =>
    intro start lastHash _
    by_cases hhit : hashToNat (h (prepareData h b (start : Int))) < powTarget
    · exact ⟨start, by simp [powRunFrom, hhit]⟩
    · rcases Nat.eq_zero_or_pos f with hf | hf
      · subst hf
        exact ⟨start, by simp [powRunFrom, hhit]⟩
      · obtain ⟨m, hm⟩ := ih (start + 1) (h (prepareData h b (start : Int))) hf
        exact ⟨m, by simp [powRunFrom, hhit, hm]⟩

/-- A freshly assembled block keeps its inputs and carries a mined hash
shape. -/
theorem newBlock_shape (h : HashFn) (txs : List Transaction) (prev : Bytes)
    (now : Int) :
    (NewBlock h txs prev now).PrevBlockHash = prev ∧
    (NewBlock h txs prev now).Transactions = txs ∧
    HashShape h (NewBlock h txs prev now) := by
  refine ⟨rfl, rfl, ?_⟩
  obtain ⟨m, hm⟩ := powRunFrom_shape h (mkBaseBlock txs prev now) maxNonce 0
    (List.replicate 32 0) (by decide)
  refine ⟨(m : Int), ?_⟩
  have he : NewBlock h txs prev now = { mkBaseBlock txs prev now with
      Hash := (powRun h (mkBaseBlock txs prev now)).2,
      Nonce := ((powRun h (mkBaseBlock txs prev now)).1 : Int) } := rfl
  rw [he, prepareData_update]
  exact hm

/-- Every block of a well-formed spine has mined hash shape. -/
theorem spineOK_mem_shape (h : HashFn) :
    ∀ (bs : List Block), SpineOK h bs → ∀ b ∈ bs, HashShape h b := by
  intro bs
  induction bs with
  | nil => intro hsp; exact absurd hsp (by simp [SpineOK])
  | cons b0 rest ih =>
    intro hsp b hb
    cases rest with
    | nil =>
      simp only [SpineOK] at hsp
      rcases List.mem_singleton.mp hb with rfl
      exact hsp.2
    | cons b1 rest2 =>
      simp only [SpineOK] at hsp
      rcases List.mem_cons.mp hb with rfl | hb2
      · exact hsp.2.1
      · exact ih hsp.2.2 b hb2

/-- Hash lengths along a well-formed spine. -/
theorem spineOK_hash_length (h : HashFn) (hlen : ∀ x, (h x).length = 32)
    (bs : List Block) (hsp : SpineOK h bs) :
    ∀ b ∈ bs, b.Hash.length = 32 := by
  intro b hb
  obtain ⟨m, hm⟩ := spineOK_mem_shape h bs hsp b hb
  rw [hm]
  exact hlen _

/-- The previous hash of any spine block is empty or the hash of a later
spine block. -/
theorem spineOK_prev_mem (h : HashFn) :
    ∀ (b0 : Block) (rest : List Block), SpineOK h (b0 :: rest) →
      ∀ b ∈ b0 :: rest,
        b.PrevBlockHash = [] ∨ b.PrevBlockHash ∈ rest.map Block.Hash := by
  intro b0 rest
  induction rest generalizing b0 with
  | nil =>
    intro hsp b hb
    simp only [SpineOK] at hsp
    rcases List.mem_singleton.mp hb with rfl
    exact Or.inl hsp.1
  | cons b1 rest2 ih =>
    intro hsp b hb
    simp only [SpineOK] at hsp
    rcases List.mem_cons.mp hb with rfl | hb2
    · exact Or.inr (by simp [hsp.1])
    · rcases ih b1 hsp.2.2 b hb2 with he | hm
      · exact Or.inl he
      · exact Or.inr (List.mem_cons_of_mem _ hm)

/-- The last block of a well-formed spine has an empty previous hash. -/
theorem spineOK_last (h : HashFn) :
    ∀ (bs : List Block), SpineOK h bs →
      ∃ g, bs.getLast? = some g ∧ g.PrevBlockHash = [] := by
  intro bs
  induction bs with
  | nil => intro hsp; exact absurd hsp (by simp [SpineOK])
  | cons b0 rest ih =>
    intro hsp
    cases rest with
    | nil =>
      simp only [SpineOK] at hsp
      exact ⟨b0, rfl, hsp.1⟩
    | cons b1 rest2 =>
      simp only [SpineOK] at hsp
      obtain ⟨g, hg1, hg2⟩ := ih hsp.2.2
      exact ⟨g, by rw [List.getLast?_cons_cons]; exact hg1, hg2⟩

/-- Every non-last block of a well-formed spine has a nonempty previous
hash. -/
theorem spineOK_dropLast (h : HashFn) (hlen : ∀ x, (h x).length = 32) :
    ∀ (bs : List Block), SpineOK h bs →
      ∀ b ∈ bs.dropLast, b.PrevBlockHash ≠ [] := by
  intro bs
  induction bs with
  | nil => intro _ b hb; simp at hb
  | cons b0 rest ih =>
    intro hsp b hb
    cases rest with
    | nil => simp at hb
    | cons b1 rest2 =>
      simp only [SpineOK] at hsp
      rw [List.dropLast_cons_of_ne_nil (by simp)] at hb
      rcases List.mem_cons.mp hb with rfl | hb2
      · rw [hsp.1]
        have hl := spineOK_hash_length h hlen (b1 :: rest2) hsp.2.2 b1
          (List.mem_cons_self b1 rest2)
        intro he
        rw [he] at hl
        simp at hl
      · exact ih hsp.2.2 b hb2

/-- A spine hash never equals the reserved tip key. -/
theorem hash_ne_lKey (b : Block) (hl : b.Hash.length = 32) : b.Hash ≠ lKey := by
  intro he
  rw [he] at hl
  simp [lKey] at hl

/-- Freshness: hashing a header whose previous-hash prefix is the current
tip hash can reproduce no hash already on the spine, for an injective
32-byte hash function. -/
theorem fresh_hash (h : HashFn) (hinj : Function.Injective h)
    (hlen : ∀ x, (h x).length = 32) (b0 : Block) (rest : List Block)
    (hsp : SpineOK h (b0 :: rest)) (hnd : ((b0 :: rest).map Block.Hash).Nodup)
    (tail : Bytes) (htail : tail.length = 56) :
    h (b0.Hash ++ tail) ∉ (b0 :: rest).map Block.Hash := by
  intro hmem
  obtain ⟨b, hb, hbh⟩ := List.mem_map.mp hmem
  obtain ⟨m, hm⟩ := spineOK_mem_shape h (b0 :: rest) hsp b hb
  have heq : h (prepareData h b m) = h (b0.Hash ++ tail) := by rw [← hm, hbh]
  have hpre := hinj heq
  rw [prepareData_split] at hpre
  have hsuf := prepareData_suffix_length h hlen b m
  have hb0l : b0.Hash.length = 32 :=
    spineOK_hash_length h hlen (b0 :: rest) hsp b0 (List.mem_cons_self b0 rest)
  have hplen : b.PrevBlockHash.length = 32 := by
    have h1 := congrArg List.length hpre
    simp only [List.length_append, hsuf, htail, hb0l] at h1
    omega
  have hpe : b.PrevBlockHash = b0.Hash ∧ _ :=
    List.append_inj hpre (by rw [hplen, hb0l])
  have hprev : b0.Hash ∈ rest.map Block.Hash := by
    rcases spineOK_prev_mem h b0 rest hsp b hb with he | hmem2
    · rw [he] at hplen
      simp at hplen
    · rw [← hpe.1]
      exact hmem2
  rw [List.map_cons, List.nodup_cons] at hnd
  exact hnd.1 hprev

/-- Reading the tip key from the store of a spine. -/
theorem bget_storeOf_lKey (b : Block) (rest : List Block) :
    bget (storeOf (b :: rest)) lKey = some b.Hash := by
  simp [storeOf, bget]

/-- Reading any spine block from the store of a spine. -/
theorem bget_storeOf_mem :
    ∀ (bs : List Block), (∀ b ∈ bs, b.Hash.length = 32) →
      (bs.map Block.Hash).Nodup →
      ∀ b ∈ bs, bget (storeOf bs) b.Hash = some b.Serialize := by
  intro bs
  induction bs with
  | nil => intro _ _ b hb; simp at hb
  | cons b0 rest ih =>
    intro hsh hnd b hb
    have hne : b.Hash ≠ lKey :=
      hash_ne_lKey b (hsh b hb)
    rcases List.mem_cons.mp hb with rfl | hb2
    · have h1 : bget (storeOf (b :: rest)) b.Hash
          = if lKey = b.Hash then some b.Hash else
              (if b.Hash = b.Hash then some b.Serialize
               else bget (storeOf rest) b.Hash) := rfl
      rw [h1, if_neg (fun he : lKey = b.Hash => hne he.symm), if_pos rfl]
    · rw [List.map_cons, List.nodup_cons] at hnd
      have hne0 : b0.Hash ≠ b.Hash := by
        intro he
        exact hnd.1 (he ▸ List.mem_map_of_mem Block.Hash hb2)
      have h1 : bget (storeOf (b0 :: rest)) b.Hash
          = if lKey = b.Hash then some b0.Hash else
              (if b0.Hash = b.Hash then some b0.Serialize
               else bget (storeOf rest) b.Hash) := rfl
      rw [h1, if_neg (fun he : lKey = b.Hash => hne he.symm), if_neg hne0]
      exact ih (fun x hx => hsh x (List.mem_cons_of_mem b0 hx)) hnd.2 b hb2

/-- The store of a spine holds twice as many records as blocks. -/
theorem storeOf_length (bs : List Block) :
    (storeOf bs).length = 2 * bs.length := by
  induction bs with
  | nil => rfl
  | cons b rest ih => simp [storeOf, ih]; omega

/-- The non-reserved keys of a spine store are exactly the spine hashes. -/
theorem storeOf_keys (bs : List Block) (hne : ∀ b ∈ bs, b.Hash ≠ lKey) :
    ((storeOf bs).map Prod.fst).filter (fun k => k ≠ lKey) = bs.map Block.Hash := by
  induction bs with
  | nil => rfl
  | cons b rest ih =>
    simp only [storeOf, List.map_cons, List.filter_cons]
    rw [if_neg (by simp)]
    rw [if_pos (by simp [hne b (List.mem_cons_self b rest)])]
    rw [ih (fun x hx => hne x (List.mem_cons_of_mem b hx))]

/-- Walking the chain from the head of a well-stored spine returns exactly
the spine. -/
theorem chainWalk_spine (h : HashFn) (hlen : ∀ x, (h x).length = 32)
    (store : List (Bytes × Bytes)) :
    ∀ (rest : List Block) (b0 : Block) (fuel : Nat),
      SpineOK h (b0 :: rest) →
      (∀ b ∈ b0 :: rest, bget store b.Hash = some b.Serialize) →
      rest.length + 1 ≤ fuel →
      chainWalk store fuel b0.Hash = some (b0 :: rest) := by
  intro rest
  induction rest with
  | nil =>
    intro b0 fuel hsp hget hfuel
    simp only [SpineOK] at hsp
    obtain ⟨f, rfl⟩ : ∃ f, fuel = f + 1 := ⟨fuel - 1, by omega⟩
    simp [chainWalk, hget b0 (List.mem_cons_self b0 []),
      DeserializeBlock_Serialize, hsp.1]
  | cons b1 rest2 ih =>
    intro b0 fuel hsp hget hfuel
    simp only [SpineOK] at hsp
    obtain ⟨f, rfl⟩ : ∃ f, fuel = f + 1 := ⟨fuel - 1, by omega⟩
    have hb1l : b1.Hash.length = 32 :=
      spineOK_hash_length h hlen (b1 :: rest2) hsp.2.2 b1 (List.mem_cons_self b1 rest2)
    have hwalk := ih b1 f hsp.2.2
      (fun b hb => hget b (List.mem_cons_of_mem b0 hb))
      (by simp at hfuel ⊢; omega)
    simp [chainWalk, hget b0 (List.mem_cons_self b0 _),
      DeserializeBlock_Serialize, hsp.1, hb1l, hwalk]

/-- Bootstrap establishes the chain invariant. -/
theorem chainInv_boot (h : HashFn) (address : String) (now : Int) :
    ChainInv h (CreateBlockchain h address now) := by
  obtain ⟨hprev, _, hshape⟩ :=
    newBlock_shape h [NewCoinbaseTX h address genesisCoinbaseData] [] now
  refine ⟨[NewGenesisBlock h (NewCoinbaseTX h address genesisCoinbaseData) now],
    rfl, ⟨_, [], rfl, rfl⟩, ?_, by simp⟩
  simp only [SpineOK]
  exact ⟨hprev, hshape⟩

/-- Block admission preserves the chain invariant, for an injective 32-byte
hash function. -/
theorem chainInv_mine (h : HashFn) (hinj : Function.Injective h)
    (hlen : ∀ x, (h x).length = 32) (s : ChainState)
    (txs : List Transaction) (now : Int) (hinv : ChainInv h s) :
    ChainInv h (MineBlock h s txs now) := by
  obtain ⟨bs, hstore, ⟨b0, rest, rfl, htip⟩, hsp, hnd⟩ := hinv
  have hlast : (bget s.store lKey).getD [] = b0.Hash := by
    rw [hstore, bget_storeOf_lKey]
    rfl
  have hmb : MineBlock h s txs now =
      { store := bput (bput s.store (NewBlock h txs b0.Hash now).Hash
          (NewBlock h txs b0.Hash now).Serialize) lKey (NewBlock h txs b0.Hash now).Hash,
        tip := (NewBlock h txs b0.Hash now).Hash } := by
    simp only [MineBlock, hlast]
  obtain ⟨hprev, _, hshape⟩ := newBlock_shape h txs b0.Hash now
  have hfresh : (NewBlock h txs b0.Hash now).Hash ∉ (b0 :: rest).map Block.Hash := by
    obtain ⟨m, hm⟩ := hshape
    rw [hm, prepareData_split, hprev]
    exact fresh_hash h hinj hlen b0 rest hsp hnd _
      (prepareData_suffix_length h hlen _ m)
  refine ⟨NewBlock h txs b0.Hash now :: b0 :: rest, ?_, ?_, ?_, ?_⟩
  · rw [hmb]
    show bput (bput s.store _ _) lKey _ = _
    rw [hstore]
    rfl
  · exact ⟨NewBlock h txs b0.Hash now, b0 :: rest, rfl, by rw [hmb]⟩
  · simp only [SpineOK]
    exact ⟨hprev, hshape, hsp⟩
  · rw [List.map_cons, List.nodup_cons]
    exact ⟨hfresh, hnd⟩

/-- Every reachable state satisfies the chain invariant. -/
theorem chainInv_reachable (h : HashFn) (hinj : Function.Injective h)
    (hlen : ∀ x, (h x).length = 32) (s : ChainState)
    (hreach : Reachable h s) : ChainInv h s := by
  induction hreach with
  | boot address now => exact chainInv_boot h address now
  | mine s2 txs now _ ih => exact chainInv_mine h hinj hlen s2 txs now ih

/-- C3: in every chain state reachable solely through bootstrap and block
admission, for an injective 32-byte hash function, the genesis block has an
empty previous hash; the iterator walk from the tip succeeds and terminates
at exactly one such block, visiting pairwise distinct hashes (no cycles);
and the put history of the store never repeats a block key, so no existing
block record is ever rewritten. -/
theorem c3_chain_walk_terminates_append_only (h : HashFn) (s : ChainState)
    (hinj : Function.Injective h) (hlen : ∀ x, (h x).length = 32)
    (hreach : Reachable h s) :
    ∃ bs : List Block,
      walkBlocks s = some bs ∧ bs ≠ [] ∧
      (∃ g, bs.getLast? = some g ∧ g.PrevBlockHash.length = 0) ∧
      (∀ b ∈ bs.dropLast, b.PrevBlockHash ≠ []) ∧
      (bs.map Block.Hash).Nodup ∧
      ((s.store.map Prod.fst).filter (fun k => k ≠ lKey)).Nodup := by
  obtain ⟨bs, hstore, ⟨b0, rest, rfl, htip⟩, hsp, hnd⟩ :=
    chainInv_reachable h hinj hlen s hreach
  have hsh : ∀ b ∈ b0 :: rest, b.Hash.length = 32 :=
    spineOK_hash_length h hlen _ hsp
  have hget : ∀ b ∈ b0 :: rest, bget s.store b.Hash = some b.Serialize := by
    intro b hb
    rw [hstore]
    exact bget_storeOf_mem _ hsh hnd b hb
  have hfuel : rest.length + 1 ≤ s.store.length := by
    rw [hstore, storeOf_length]
    simp only [List.length_cons]
    omega
  refine ⟨b0 :: rest, ?_, by simp, ?_, ?_, hnd, ?_⟩
  · rw [walkBlocks, htip]
    exact chainWalk_spine h hlen s.store rest b0 s.store.length hsp hget hfuel
  · obtain ⟨g, hg1, hg2⟩ := spineOK_last h _ hsp
    exact ⟨g, hg1, by rw [hg2]; rfl⟩
  · exact spineOK_dropLast h hlen _ hsp
  · rw [hstore, storeOf_keys _ (fun b hb => hash_ne_lKey b (hsh b hb))]
    exact hnd

/-- C3 witness: instantiating the invariant theorem at an injective
32-byte hash function on the freshly bootstrapped chain. -/
theorem c3_witness :
    ∃ bs : List Block,
      walkBlocks (CreateBlockchain hashEnc "A" 0) = some bs ∧ bs ≠ [] ∧
      (∃ g, bs.getLast? = some g ∧ g.PrevBlockHash.length = 0) ∧
      (∀ b ∈ bs.dropLast, b.PrevBlockHash ≠ []) ∧
      (bs.map Block.Hash).Nodup ∧
      (((CreateBlockchain hashEnc "A" 0).store.map Prod.fst).filter
        (fun k => k ≠ lKey)).Nodup :=
  c3_chain_walk_terminates_append_only hashEnc (CreateBlockchain hashEnc "A" 0)
    (fun a b hab => Encodable.encode_injective (List.cons.inj hab).1)
    (fun x => by simp [hashEnc])
    (Reachable.boot "A" 0)
